import Mathlib

/-!
Verification of the assessment-ops mini platform's ingestion decision engine
against its specification.

The repository ships the React frontend (`UploadAnalyze`, `AttemptDetail`,
`api/client.ts`) and the design documents (`DECISIONS.md`, the architecture
guide); the backend modules they describe (`normalize.py`, `dedup.py`,
`scoring.py`, the ingestion routes) are not part of the checked-in sources.
Definitions for those backend components are therefore modelled from the
spec's own algorithm descriptions and are marked as such in their doc
comments; definitions for the frontend behaviour are translated from the
TypeScript sources.

Conventions of the embedding:
* strings are handled through their `List Char` data, with ASCII
  lower-casing modelled explicitly;
* question identifiers are modelled as `Nat` (the dataset uses numeric
  question ids), answer tokens as `String`, with `"SKIP"` an ordinary,
  distinct token;
* timestamps are modelled as integers (epoch time); the 7-minute window is
  applied by the candidate lookup before `find_duplicate` runs, exactly as
  in the spec's contract for the deduplication engine;
* fractional quantities (similarity, accuracy) are computed with integer
  arithmetic in the executable definitions and related to their rational
  spec formulas by proved lemmas.
-/

/-! ### Character-level helpers for the Normalizer -/

/-- Modelled from the spec: whitespace for the `trim` step of
`normalize_email` (space, tab, newline, carriage return). -/
def isWsChar (c : Char) : Bool :=
  c = ' ' || c = '\t' || c = '\n' || c = '\r'

/-- The 26 basic-latin upper/lower case pairs used by ASCII lower-casing. -/
def upperLowerPairs : List (Char × Char) :=
  [('A', 'a'), ('B', 'b'), ('C', 'c'), ('D', 'd'), ('E', 'e'), ('F', 'f'),
   ('G', 'g'), ('H', 'h'), ('I', 'i'), ('J', 'j'), ('K', 'k'), ('L', 'l'),
   ('M', 'm'), ('N', 'n'), ('O', 'o'), ('P', 'p'), ('Q', 'q'), ('R', 'r'),
   ('S', 's'), ('T', 't'), ('U', 'u'), ('V', 'v'), ('W', 'w'), ('X', 'x'),
   ('Y', 'y'), ('Z', 'z')]

/-- Modelled from the spec: ASCII lower-casing of one character
("lowercase the whole address"). -/
def lowerChar (c : Char) : Char :=
  ((upperLowerPairs.find? (fun p => p.1 = c)).map Prod.snd).getD c

/-- Lower-case every character of a string's character list. -/
def lowerChars (l : List Char) : List Char := l.map lowerChar

/-- Drop leading whitespace characters. -/
def ltrim (l : List Char) : List Char := l.dropWhile isWsChar

/-- Drop trailing whitespace characters. -/
def rtrim (l : List Char) : List Char := (l.reverse.dropWhile isWsChar).reverse

/-- Modelled from the spec: the `trim` step — drop leading and trailing
whitespace. -/
def trimChars (l : List Char) : List Char := rtrim (ltrim l)

/-! ### Normalizer (spec §4.1; backend `normalize.py` is not in the sources,
so these are modelled from the spec) -/

/-- Modelled from the spec: the Gmail-family domains whose local parts are
canonicalised (dots ignored, `+tag` an alias). -/
def gmailDomains : List (List Char) := ["gmail.com".data, "googlemail.com".data]

/-- Modelled from the spec: remove a trailing `+tag` from a local part —
everything from the first `'+'` on is the alias tag. -/
def stripPlusTag (l : List Char) : List Char := l.takeWhile (fun c => c != '+')

/-- Modelled from the spec: remove all `'.'` characters from a local part. -/
def stripDots (l : List Char) : List Char := l.filter (fun c => c != '.')

/-- Split an address at its first `'@'` into local part and domain; `none`
when there is no `'@'` (malformed input, which includes the empty string). -/
def splitLocalDomain (l : List Char) : Option (List Char × List Char) :=
  if '@' ∈ l then
    some (l.takeWhile (fun c => c != '@'), (l.dropWhile (fun c => c != '@')).tail)
  else none

/-- Modelled from the spec: `normalize_email` on character lists — lowercase
and trim the whole address; on a Gmail-family domain additionally remove the
trailing `+tag` and all dots from the local part; `none` on input without
`'@'`. -/
def normalizeEmailChars (l : List Char) : Option (List Char) :=
  match splitLocalDomain (trimChars (lowerChars l)) with
  | none => none
  | some (lo, dom) =>
    some (trimChars
      ((if dom ∈ gmailDomains then stripDots (stripPlusTag lo) else lo) ++ '@' :: dom))

/-- Modelled from the spec: `normalize_email(raw)` — `null` on empty or
malformed input (no `'@'`), otherwise the canonical address. -/
def normalize_email (s : String) : Option String :=
  (normalizeEmailChars s.data).map String.mk

/-- Modelled from the spec: `normalize_phone(raw)` — strip every non-digit
character, take the last 10 digits, `null` when fewer than 10 digits
remain. -/
def normalize_phone (s : String) : Option String :=
  if (s.data.filter Char.isDigit).length < 10 then none
  else
    some (String.mk ((s.data.filter Char.isDigit).drop
      ((s.data.filter Char.isDigit).length - 10)))

/-! ### Infrastructure lemmas about the character helpers -/

theorem lowerChar_mem_fix {p : Char × Char}
    (hp : p ∈ upperLowerPairs) : lowerChar p.2 = p.2 := by
  have h : ∀ q ∈ upperLowerPairs, lowerChar q.2 = q.2 := by decide
  exact h p hp

theorem lowerChar_idem (c : Char) : lowerChar (lowerChar c) = lowerChar c := by
  unfold lowerChar
  cases h : upperLowerPairs.find? (fun p => p.1 = c) with
  | none => simp [h]
  | some p =>
    have hmem : p ∈ upperLowerPairs := List.mem_of_find?_eq_some h
    have := lowerChar_mem_fix hmem
    simpa [h, lowerChar] using this

theorem lowerChars_idem (l : List Char) :
    lowerChars (lowerChars l) = lowerChars l := by
  unfold lowerChars
  rw [List.map_map]
  exact List.map_congr_left (fun a _ => lowerChar_idem a)

theorem lowerChar_fix_of_mem_lowerChars {c : Char} {l : List Char}
    (h : c ∈ lowerChars l) : lowerChar c = c := by
  rcases List.mem_map.mp h with ⟨a, _, rfl⟩
  exact lowerChar_idem a

theorem dropWhile_dropWhile (p : Char → Bool) (l : List Char) :
    List.dropWhile p (List.dropWhile p l) = List.dropWhile p l := by
  induction l with
  | nil => rfl
  | cons a t ih =>
    by_cases h : p a
    · simp [List.dropWhile_cons, h, ih]
    · simp [List.dropWhile_cons, h]

theorem dropWhile_head_false {p : Char → Bool} {l : List Char} {a : Char}
    {t : List Char} (h : List.dropWhile p l = a :: t) : p a = false := by
  induction l with
  | nil => simp at h
  | cons b u ih =>
    by_cases hb : p b
    · rw [List.dropWhile_cons, if_pos hb] at h
      exact ih h
    · rw [List.dropWhile_cons, if_neg hb] at h
      cases h
      simpa using hb

theorem dropWhile_cons_false {p : Char → Bool} {a : Char} {t : List Char}
    (h : p a = false) : List.dropWhile p (a :: t) = a :: t := by
  simp [List.dropWhile_cons, h]

theorem dropWhile_eq_self_of_stable_append {p : Char → Bool}
    {A B : List Char} (h : List.dropWhile p (A ++ B) = A ++ B) :
    List.dropWhile p A = A := by
  cases A with
  | nil => rfl
  | cons a t =>
    by_cases ha : p a
    · exfalso
      rw [List.cons_append, List.dropWhile_cons, if_pos ha] at h
      have hlen : (List.dropWhile p (t ++ B)).length = (t ++ B).length + 1 := by
        rw [h]; simp
      have hle : (List.dropWhile p (t ++ B)).length ≤ (t ++ B).length :=
        (List.dropWhile_sublist p).length_le
      omega
    · exact dropWhile_cons_false (by simpa using ha)

theorem ltrim_idem (l : List Char) : ltrim (ltrim l) = ltrim l :=
  dropWhile_dropWhile _ l

theorem rtrim_idem (l : List Char) : rtrim (rtrim l) = rtrim l := by
  unfold rtrim
  rw [List.reverse_reverse, dropWhile_dropWhile]

theorem mem_ltrim {a : Char} {l : List Char} (h : a ∈ ltrim l) : a ∈ l :=
  (List.dropWhile_sublist _).subset h

theorem mem_rtrim {a : Char} {l : List Char} (h : a ∈ rtrim l) : a ∈ l := by
  unfold rtrim at h
  rw [List.mem_reverse] at h
  exact List.mem_reverse.mp ((List.dropWhile_sublist _).subset h)

theorem mem_trimChars {a : Char} {l : List Char} (h : a ∈ trimChars l) :
    a ∈ l := mem_ltrim (mem_rtrim h)

theorem dropWhile_append_singleton {p : Char → Bool} {a : Char}
    (ha : p a = false) :
    ∀ u : List Char, ∃ w, List.dropWhile p (u ++ [a]) = w ++ [a] := by
  intro u
  induction u with
  | nil => exact ⟨[], by simp [List.dropWhile_cons, ha]⟩
  | cons b v ih =>
    by_cases hb : p b
    · obtain ⟨w, hw⟩ := ih
      exact ⟨w, by simp [List.dropWhile_cons, hb]; simpa using hw⟩
    · exact ⟨b :: v, by simp [List.dropWhile_cons, hb]⟩

theorem ltrim_rtrim_ltrim (l : List Char) :
    ltrim (rtrim (ltrim l)) = rtrim (ltrim l) := by
  rcases hz : ltrim l with _ | ⟨a, t⟩
  · rfl
  · have ha : isWsChar a = false := dropWhile_head_false hz
    obtain ⟨w, hw⟩ := dropWhile_append_singleton ha t.reverse
    show ltrim (rtrim (a :: t)) = rtrim (a :: t)
    unfold rtrim
    rw [List.reverse_cons, hw, List.reverse_append]
    simp only [List.reverse_cons, List.reverse_nil, List.nil_append,
      List.singleton_append]
    exact dropWhile_cons_false ha

theorem trimChars_idem (l : List Char) :
    trimChars (trimChars l) = trimChars l := by
  unfold trimChars
  rw [ltrim_rtrim_ltrim, rtrim_idem]

theorem takeWhile_append_of_all {p : Char → Bool} {l₁ l₂ : List Char}
    {x : Char} (h₁ : ∀ a ∈ l₁, p a = true) (hx : p x = false) :
    List.takeWhile p (l₁ ++ x :: l₂) = l₁ := by
  induction l₁ with
  | nil => simp [List.takeWhile_cons, hx]
  | cons a t ih =>
    have ha := h₁ a (by simp)
    rw [List.cons_append, List.takeWhile_cons, if_pos ha,
      ih (fun b hb => h₁ b (by simp [hb]))]

theorem dropWhile_append_of_all {p : Char → Bool} {l₁ l₂ : List Char}
    {x : Char} (h₁ : ∀ a ∈ l₁, p a = true) (hx : p x = false) :
    List.dropWhile p (l₁ ++ x :: l₂) = x :: l₂ := by
  induction l₁ with
  | nil => simp [List.dropWhile_cons, hx]
  | cons a t ih =>
    have ha := h₁ a (by simp)
    rw [List.cons_append, List.dropWhile_cons, if_pos ha,
      ih (fun b hb => h₁ b (by simp [hb]))]

theorem dropWhile_append_cons_false {p : Char → Bool} {l₁ l₂ : List Char}
    {x : Char} (hx : p x = false) :
    List.dropWhile p (l₁ ++ x :: l₂) = List.dropWhile p l₁ ++ x :: l₂ := by
  induction l₁ with
  | nil => simp [List.dropWhile_cons, hx]
  | cons a t ih =>
    by_cases ha : p a
    · rw [List.cons_append, List.dropWhile_cons, if_pos ha, ih,
        List.dropWhile_cons, if_pos ha]
    · rw [List.cons_append, List.dropWhile_cons, if_neg ha,
        List.dropWhile_cons, if_neg ha, List.cons_append]

theorem rtrim_append_cons {u d : List Char} {x : Char}
    (hx : isWsChar x = false)
    (hd : List.dropWhile isWsChar d.reverse = d.reverse) :
    rtrim (u ++ x :: d) = u ++ x :: d := by
  unfold rtrim
  have hrev : (u ++ x :: d).reverse = d.reverse ++ x :: u.reverse := by
    rw [List.reverse_append, List.reverse_cons, List.append_assoc,
      List.singleton_append]
  rw [hrev]
  rcases hdr : d.reverse with _ | ⟨b, v⟩
  · rw [List.nil_append, dropWhile_cons_false hx, ← List.nil_append (x :: u.reverse),
      ← hdr, ← hrev, List.reverse_reverse]
  · have hb : isWsChar b = false := by
      rw [hdr] at hd
      exact dropWhile_head_false hd
    rw [List.cons_append, dropWhile_cons_false hb, ← List.cons_append, ← hdr,
      ← hrev, List.reverse_reverse]

theorem mem_dropWhile_of_false {p : Char → Bool} {a : Char} {l : List Char}
    (hmem : a ∈ l) (ha : p a = false) : a ∈ List.dropWhile p l := by
  induction l with
  | nil => simp at hmem
  | cons b t ih =>
    by_cases hb : p b
    · rw [List.dropWhile_cons, if_pos hb]
      rcases List.mem_cons.mp hmem with rfl | h
      · rw [hb] at ha; exact absurd ha (by simp)
      · exact ih h
    · rw [List.dropWhile_cons, if_neg hb]
      exact hmem

theorem mem_trimChars_of_false {a : Char} {l : List Char}
    (hmem : a ∈ l) (ha : isWsChar a = false) : a ∈ trimChars l := by
  unfold trimChars rtrim ltrim
  rw [List.mem_reverse]
  exact mem_dropWhile_of_false
    (List.mem_reverse.mpr (mem_dropWhile_of_false hmem ha)) ha

theorem lowerChar_at_sign {c : Char} (h : lowerChar c = '@') : c = '@' := by
  unfold lowerChar at h
  cases hf : upperLowerPairs.find? (fun p => p.1 = c) with
  | none => simpa [hf] using h
  | some p =>
    exfalso
    have hmem : p ∈ upperLowerPairs := List.mem_of_find?_eq_some hf
    have hval : ∀ q ∈ upperLowerPairs, q.2 ≠ '@' := by decide
    rw [hf] at h
    exact hval p hmem (by simpa using h)

theorem dropWhile_bne_of_mem {l : List Char} (h : '@' ∈ l) :
    ∃ t, List.dropWhile (fun c => c != '@') l = '@' :: t := by
  induction l with
  | nil => simp at h
  | cons a u ih =>
    by_cases ha : a = '@'
    · subst ha
      exact ⟨u, by simp [List.dropWhile_cons]⟩
    · have hmem : '@' ∈ u := by
        rcases List.mem_cons.mp h with h' | h'
        · exact absurd h'.symm ha
        · exact h'
      obtain ⟨t, ht⟩ := ih hmem
      exact ⟨t, by rw [List.dropWhile_cons, if_pos (by simpa using ha)]; exact ht⟩

theorem splitLocalDomain_eq_some {s lo dom : List Char}
    (h : splitLocalDomain s = some (lo, dom)) :
    s = lo ++ '@' :: dom ∧ '@' ∉ lo := by
  unfold splitLocalDomain at h
  by_cases hmem : '@' ∈ s
  · rw [if_pos hmem] at h
    obtain ⟨t, ht⟩ := dropWhile_bne_of_mem hmem
    injection h with h'
    injection h' with h1 h2
    constructor
    · rw [← h1, ← h2]
      conv_lhs => rw [← List.takeWhile_append_dropWhile (fun c => c != '@') s]
      rw [ht]
      rfl
    · intro hat
      rw [← h1] at hat
      have := List.mem_takeWhile_imp hat
      simp at this
  · rw [if_neg hmem] at h
    exact absurd h (by simp)

theorem splitLocalDomain_append {lo dom : List Char} (hlo : '@' ∉ lo) :
    splitLocalDomain (lo ++ '@' :: dom) = some (lo, dom) := by
  unfold splitLocalDomain
  have hmem : '@' ∈ lo ++ '@' :: dom := by simp
  rw [if_pos hmem]
  have hall : ∀ a ∈ lo, (a != '@') = true := by
    intro a ha
    simp only [bne_iff_ne, ne_eq]
    exact fun h => hlo (h ▸ ha)
  rw [takeWhile_append_of_all hall (by simp),
    dropWhile_append_of_all hall (by simp)]
  rfl

theorem mem_stripPlusTag {a : Char} {l : List Char}
    (h : a ∈ stripPlusTag l) : a ∈ l := (List.takeWhile_sublist _).subset h

theorem mem_stripDots {a : Char} {l : List Char}
    (h : a ∈ stripDots l) : a ∈ l := (List.filter_sublist _).subset h

theorem plus_not_mem_stripPlusTag {l : List Char} : '+' ∉ stripPlusTag l := by
  intro h
  have := List.mem_takeWhile_imp h
  simp at this

theorem dot_not_mem_stripDots {l : List Char} : '.' ∉ stripDots l := by
  intro h
  have := List.mem_filter.mp h
  simp at this

theorem takeWhile_eq_self_of_all {p : Char → Bool} {l : List Char}
    (h : ∀ a ∈ l, p a = true) : List.takeWhile p l = l := by
  induction l with
  | nil => rfl
  | cons a t ih =>
    rw [List.takeWhile_cons, if_pos (h a (by simp)),
      ih (fun b hb => h b (by simp [hb]))]

theorem rtrim_eq_self_of_trimChars (l : List Char) :
    List.dropWhile isWsChar (trimChars l).reverse = (trimChars l).reverse := by
  have h : rtrim (trimChars l) = trimChars l := rtrim_idem (ltrim l)
  unfold rtrim at h
  have h2 := congrArg List.reverse h
  rwa [List.reverse_reverse] at h2

theorem dom_ws_stable {l lo dom : List Char}
    (hsplit : splitLocalDomain (trimChars l) = some (lo, dom)) :
    List.dropWhile isWsChar dom.reverse = dom.reverse := by
  obtain ⟨hrec, -⟩ := splitLocalDomain_eq_some hsplit
  have hstab := rtrim_eq_self_of_trimChars l
  rw [hrec] at hstab
  have hrev : (lo ++ '@' :: dom).reverse = dom.reverse ++ '@' :: lo.reverse := by
    rw [List.reverse_append, List.reverse_cons, List.append_assoc,
      List.singleton_append]
  rw [hrev] at hstab
  exact dropWhile_eq_self_of_stable_append hstab

theorem splitLocalDomain_eq_none {l : List Char} :
    splitLocalDomain l = none ↔ '@' ∉ l := by
  unfold splitLocalDomain
  by_cases h : '@' ∈ l
  · simp [h]
  · simp [h]

theorem at_mem_trimChars_lowerChars (l : List Char) :
    '@' ∈ trimChars (lowerChars l) ↔ '@' ∈ l := by
  constructor
  · intro h
    have h2 : '@' ∈ lowerChars l := mem_trimChars h
    rcases List.mem_map.mp h2 with ⟨c, hc, he⟩
    rwa [lowerChar_at_sign he] at hc
  · intro h
    have h2 : '@' ∈ lowerChars l := List.mem_map.mpr ⟨'@', h, by decide⟩
    exact mem_trimChars_of_false h2 (by decide)

theorem normalizeEmailChars_eq {l t : List Char}
    (h : normalizeEmailChars l = some t) :
    ∃ lo dom,
      splitLocalDomain (trimChars (lowerChars l)) = some (lo, dom) ∧
      t = ltrim (if dom ∈ gmailDomains then stripDots (stripPlusTag lo) else lo)
          ++ '@' :: dom := by
  unfold normalizeEmailChars at h
  cases hsplit : splitLocalDomain (trimChars (lowerChars l)) with
  | none => rw [hsplit] at h; simp at h
  | some pr =>
    obtain ⟨lo, dom⟩ := pr
    rw [hsplit] at h
    simp only [Option.some.injEq] at h
    refine ⟨lo, dom, rfl, ?_⟩
    have hdom := dom_ws_stable (l := lowerChars l) hsplit
    have h1 : ∀ u : List Char, ltrim (u ++ '@' :: dom) = ltrim u ++ '@' :: dom :=
      fun u => dropWhile_append_cons_false (by decide)
    have h2 : rtrim (ltrim (if dom ∈ gmailDomains then stripDots (stripPlusTag lo) else lo)
        ++ '@' :: dom) = ltrim (if dom ∈ gmailDomains then stripDots (stripPlusTag lo) else lo)
        ++ '@' :: dom :=
      rtrim_append_cons (by decide) hdom
    rw [← h]
    unfold trimChars
    rw [h1, h2]

theorem normalizeEmailChars_idem {l t : List Char}
    (h : normalizeEmailChars l = some t) : normalizeEmailChars t = some t := by
  obtain ⟨lo, dom, hsplit, ht⟩ := normalizeEmailChars_eq h
  obtain ⟨hrec, hat⟩ := splitLocalDomain_eq_some hsplit
  have hsub : ∀ a ∈ (if dom ∈ gmailDomains then stripDots (stripPlusTag lo) else lo),
      a ∈ lo := by
    intro a ha
    by_cases hg : dom ∈ gmailDomains
    · rw [if_pos hg] at ha
      exact mem_stripPlusTag (mem_stripDots ha)
    · rwa [if_neg hg] at ha
  have hfix : ∀ c ∈ t, lowerChar c = c := by
    intro c hc
    rw [ht] at hc
    rcases List.mem_append.mp hc with hcl | hcr
    · have hc1 : c ∈ lo := hsub c (mem_ltrim hcl)
      have hc2 : c ∈ trimChars (lowerChars l) := by
        rw [hrec]; exact List.mem_append.mpr (Or.inl hc1)
      exact lowerChar_fix_of_mem_lowerChars (mem_trimChars hc2)
    · rcases List.mem_cons.mp hcr with rfl | hcd
      · decide
      · have hc2 : c ∈ trimChars (lowerChars l) := by
          rw [hrec]
          exact List.mem_append.mpr (Or.inr (List.mem_cons.mpr (Or.inr hcd)))
        exact lowerChar_fix_of_mem_lowerChars (mem_trimChars hc2)
  have hlower : lowerChars t = t := by
    unfold lowerChars
    rw [List.map_congr_left (g := id) (fun a ha => hfix a ha), List.map_id]
  have hdom := dom_ws_stable (l := lowerChars l) hsplit
  have h1 : ltrim t = t := by
    rw [ht]
    unfold ltrim
    rw [dropWhile_append_cons_false (by decide : isWsChar '@' = false),
      dropWhile_dropWhile]
  have h2 : rtrim t = t := by
    rw [ht]
    exact rtrim_append_cons (by decide) hdom
  have htt : trimChars t = t := by
    unfold trimChars
    rw [h1, h2]
  have hs2 : trimChars (lowerChars t) = t := by rw [hlower, htt]
  have hat' : '@' ∉ ltrim (if dom ∈ gmailDomains then stripDots (stripPlusTag lo) else lo) :=
    fun hm => hat (hsub _ (mem_ltrim hm))
  have hsplit2 : splitLocalDomain (trimChars (lowerChars t)) =
      some (ltrim (if dom ∈ gmailDomains then stripDots (stripPlusTag lo) else lo), dom) := by
    rw [hs2, ht]
    exact splitLocalDomain_append hat'
  have hproc : (if dom ∈ gmailDomains then
        stripDots (stripPlusTag (ltrim (if dom ∈ gmailDomains
          then stripDots (stripPlusTag lo) else lo)))
      else ltrim (if dom ∈ gmailDomains then stripDots (stripPlusTag lo) else lo))
      = ltrim (if dom ∈ gmailDomains then stripDots (stripPlusTag lo) else lo) := by
    by_cases hg : dom ∈ gmailDomains
    · rw [if_pos hg, if_pos hg]
      have hplus : ∀ a ∈ ltrim (stripDots (stripPlusTag lo)), (a != '+') = true := by
        intro a ha
        have ham : a ∈ stripDots (stripPlusTag lo) := mem_ltrim ha
        have hnp : a ≠ '+' :=
          fun he => plus_not_mem_stripPlusTag (mem_stripDots (he ▸ ham))
        simpa using hnp
      have hdots : ∀ a ∈ ltrim (stripDots (stripPlusTag lo)), (a != '.') = true := by
        intro a ha
        have ham : a ∈ stripDots (stripPlusTag lo) := mem_ltrim ha
        have hnd : a ≠ '.' := fun he => dot_not_mem_stripDots (he ▸ ham)
        simpa using hnd
      have e1 : stripPlusTag (ltrim (stripDots (stripPlusTag lo)))
          = ltrim (stripDots (stripPlusTag lo)) := takeWhile_eq_self_of_all hplus
      have e2 : stripDots (ltrim (stripDots (stripPlusTag lo)))
          = ltrim (stripDots (stripPlusTag lo)) := List.filter_eq_self.mpr hdots
      rw [e1, e2]
    · rw [if_neg hg, if_neg hg]
  show normalizeEmailChars t = some t
  unfold normalizeEmailChars
  rw [hsplit2]
  simp only [Option.some.injEq]
  rw [hproc, ← ht, htt]

theorem trimChars_append_cons {u d : List Char}
    (hd : List.dropWhile isWsChar d.reverse = d.reverse) :
    trimChars (u ++ '@' :: d) = ltrim u ++ '@' :: d := by
  unfold trimChars
  have h1 : ltrim (u ++ '@' :: d) = ltrim u ++ '@' :: d :=
    dropWhile_append_cons_false (by decide)
  rw [h1]
  exact rtrim_append_cons (by decide) hd

theorem normalizeEmailChars_none_iff (l : List Char) :
    normalizeEmailChars l = none ↔ '@' ∉ l := by
  rw [← at_mem_trimChars_lowerChars l, ← splitLocalDomain_eq_none]
  unfold normalizeEmailChars
  cases hsplit : splitLocalDomain (trimChars (lowerChars l)) with
  | none => simp
  | some pr =>
    obtain ⟨lo, dom⟩ := pr
    simp

theorem stringMk_data (s : String) : String.mk s.data = s := rfl

theorem normalize_phone_none_iff (s : String) :
    normalize_phone s = none ↔ (s.data.filter Char.isDigit).length < 10 := by
  unfold normalize_phone
  by_cases h : (s.data.filter Char.isDigit).length < 10
  · simp [h]
  · simp [h]

theorem normalize_phone_some {s t : String} (h : normalize_phone s = some t) :
    t.data = (s.data.filter Char.isDigit).drop
        ((s.data.filter Char.isDigit).length - 10)
    ∧ t.data.length = 10 ∧ ∀ c ∈ t.data, c.isDigit = true := by
  unfold normalize_phone at h
  by_cases hlen : (s.data.filter Char.isDigit).length < 10
  · rw [if_pos hlen] at h
    exact absurd h (by simp)
  · rw [if_neg hlen] at h
    simp only [Option.some.injEq] at h
    have hdata : t.data = (s.data.filter Char.isDigit).drop
        ((s.data.filter Char.isDigit).length - 10) := by
      rw [← h]
    refine ⟨hdata, ?_, ?_⟩
    · rw [hdata, List.length_drop]
      omega
    · intro c hc
      rw [hdata] at hc
      have : c ∈ s.data.filter Char.isDigit := (List.drop_sublist _ _).subset hc
      exact (List.mem_filter.mp this).2

/-- C5: `normalize_email` lowercases the whole address; on the Gmail-family
domain it additionally removes a trailing `+tag` and all `'.'` characters
from the local part; on every other domain it only lowercases and trims;
it returns `none` on empty or malformed input (no `'@'`); and the three
spec aliases all normalize to `anjalikumar@gmail.com`. -/
theorem claim_C5_normalize_email (s : String) :
    (normalize_email s = none ↔ '@' ∉ s.data)
    ∧ (∀ lo dom, splitLocalDomain (trimChars (lowerChars s.data)) = some (lo, dom) →
        (dom ∉ gmailDomains →
          normalize_email s = some (String.mk (trimChars (lowerChars s.data))))
        ∧ (dom ∈ gmailDomains →
          normalize_email s =
            some (String.mk (ltrim (stripDots (stripPlusTag lo)) ++ '@' :: dom))))
    ∧ normalize_email "a.njali.kumar+neet@gmail.com" = some "anjalikumar@gmail.com"
    ∧ normalize_email "an.j.ali..k.um.ar+neet@gmail.com" = some "anjalikumar@gmail.com"
    ∧ normalize_email "anjali.kumar@gmail.com" = some "anjalikumar@gmail.com" := by
  refine ⟨?_, ?_, by decide, by decide, by decide⟩
  · unfold normalize_email
    rw [Option.map_eq_none']
    exact normalizeEmailChars_none_iff s.data
  · intro lo dom hsplit
    obtain ⟨hrec, -⟩ := splitLocalDomain_eq_some hsplit
    have hdom := dom_ws_stable (l := lowerChars s.data) hsplit
    constructor
    · intro hng
      unfold normalize_email normalizeEmailChars
      rw [hsplit]
      simp only [if_neg hng, Option.map_some']
      rw [← hrec, trimChars_idem]
    · intro hg
      unfold normalize_email normalizeEmailChars
      rw [hsplit]
      simp only [if_pos hg, Option.map_some']
      rw [trimChars_append_cons hdom]

/-- Witness for C5 at a concrete Gmail-family address: the split hypothesis
and branch hypothesis hold, and the Gmail branch equation follows. -/
theorem claim_C5_witness :
    splitLocalDomain (trimChars (lowerChars "An.jali+x@GMAIL.com".data))
      = some ("an.jali+x".data, "gmail.com".data)
    ∧ "gmail.com".data ∈ gmailDomains
    ∧ normalize_email "An.jali+x@GMAIL.com"
      = some (String.mk (ltrim (stripDots (stripPlusTag "an.jali+x".data))
          ++ '@' :: "gmail.com".data)) :=
  ⟨by decide, by decide,
    ((claim_C5_normalize_email "An.jali+x@GMAIL.com").2.1 _ _ (by decide)).2
      (by decide)⟩

/-- C6: `normalize_phone` strips every non-digit character and keeps the
last 10 digits, failing with `none` when fewer than 10 digits remain; the
two spec-equivalent formats collapse while the third (different trailing
digit) does not. -/
theorem claim_C6_normalize_phone (s : String) :
    (normalize_phone s = none ↔ (s.data.filter Char.isDigit).length < 10)
    ∧ (∀ t, normalize_phone s = some t →
        t.data = (s.data.filter Char.isDigit).drop
            ((s.data.filter Char.isDigit).length - 10)
        ∧ t.data.length = 10 ∧ ∀ c ∈ t.data, c.isDigit = true)
    ∧ normalize_phone "+91 98765 43210" = normalize_phone "00919876543210"
    ∧ normalize_phone "+91 98765 43210" = some "9876543210"
    ∧ normalize_phone "(+91) 98765-43212" = some "9876543212"
    ∧ normalize_phone "(+91) 98765-43212" ≠ normalize_phone "+91 98765 43210" :=
  ⟨normalize_phone_none_iff s, fun _ ht => normalize_phone_some ht,
    by decide, by decide, by decide, by decide⟩

/-- Witness for C6 at `"+91 98765 43210"`: the success hypothesis holds and
the last-10-digits description follows. -/
theorem claim_C6_witness :
    normalize_phone "+91 98765 43210" = some "9876543210"
    ∧ ("9876543210" : String).data
        = (("+91 98765 43210" : String).data.filter Char.isDigit).drop
            ((("+91 98765 43210" : String).data.filter Char.isDigit).length - 10)
    ∧ ("9876543210" : String).data.length = 10
    ∧ ∀ c ∈ ("9876543210" : String).data, c.isDigit = true := by
  have h := (claim_C6_normalize_phone "+91 98765 43210").2.1 "9876543210" (by decide)
  exact ⟨by decide, h.1, h.2.1, h.2.2⟩

/-- C7: both normalizers are idempotent — re-normalizing a successful
output returns that output unchanged; both are pure total functions of
their input string. -/
theorem claim_C7_normalization_idempotent (x y : String) :
    (normalize_email x = some y → normalize_email y = some y)
    ∧ (normalize_phone x = some y → normalize_phone y = some y) := by
  constructor
  · intro h
    unfold normalize_email at h ⊢
    rw [Option.map_eq_some'] at h
    obtain ⟨t, hteq, hy⟩ := h
    have hyd : y.data = t := by rw [← hy]
    rw [hyd, normalizeEmailChars_idem hteq, Option.map_some', ← hyd,
      stringMk_data]
  · intro h
    obtain ⟨hdata, hlen, hdig⟩ := normalize_phone_some h
    have hfix : y.data.filter Char.isDigit = y.data :=
      List.filter_eq_self.mpr hdig
    unfold normalize_phone
    rw [hfix, hlen]
    simp [stringMk_data]

/-- Witness for C7: idempotence applied to a concrete Gmail address and a
concrete phone number. -/
theorem claim_C7_witness :
    normalize_email "ab@gmail.com" = some "ab@gmail.com"
    ∧ normalize_phone "9876543210" = some "9876543210" :=
  ⟨(claim_C7_normalization_idempotent "A.b+c@gmail.com" "ab@gmail.com").1
      (by decide),
    (claim_C7_normalization_idempotent "+91 98765 43210" "9876543210").2
      (by decide)⟩

/-! ### Deduplication Engine (spec §4.3; backend `dedup.py` is not in the
sources, so these are modelled from the spec) -/

/-- The distinguished skip token: a real token value, not absence. -/
def SKIP : String := "SKIP"

/-- Modelled from the spec: an attempt as seen by the deduplication engine —
id, `started_at` timestamp, flattened canonical pointer, and the answers map
(question id → answer token). -/
structure Attempt where
  id : Nat
  started_at : Int
  duplicate_of_attempt_id : Option Nat
  answers : List (Nat × String)
deriving DecidableEq

/-- The set of question keys of an answers map. -/
def answerKeys (m : List (Nat × String)) : Finset Nat := (m.map Prod.fst).toFinset

/-- Look up the answer token for a question. -/
def lookupAns (m : List (Nat × String)) (q : Nat) : Option String :=
  (m.find? (fun p => p.1 == q)).map Prod.snd

/-- Modelled from the spec: `common_keys = keys(a.answers) ∩ keys(b.answers)`. -/
def commonKeys (a b : List (Nat × String)) : Finset Nat := answerKeys a ∩ answerKeys b

/-- Modelled from the spec: `matching` — count of common questions whose
answer tokens are exactly equal (`SKIP` compares like any other token). -/
def matchingCount (a b : List (Nat × String)) : Nat :=
  ((commonKeys a b).filter (fun q => lookupAns a q = lookupAns b q)).card

/-- Modelled from the spec: `answer_similarity(a, b) = matching / |common_keys|`
as a rational (0 when there are no common keys). -/
def answer_similarity (a b : List (Nat × String)) : ℚ :=
  (matchingCount a b : ℚ) / ((commonKeys a b).card : ℚ)

/-- Modelled from the spec: a candidate qualifies when it has overlapping
answer keys and similarity at least 0.92; implemented in integer arithmetic
(`92·|common| ≤ 100·matching`) and proved equivalent to the rational
threshold in the C1 theorem. -/
def qualifiesB (n c : Attempt) : Bool :=
  decide ((commonKeys n.answers c.answers).card ≠ 0)
    && decide (92 * (commonKeys n.answers c.answers).card
        ≤ 100 * matchingCount n.answers c.answers)

/-- Decision returned by the deduplication engine. -/
inductive DuplicateDecision where
  | NOT_DUPLICATE : DuplicateDecision
  | DUPLICATE_OF (attempt_id : Nat) : DuplicateDecision
deriving DecidableEq

/-- Modelled from the spec: a candidate's ultimate canonical — its own
`duplicate_of_attempt_id` when already set, else the candidate itself. -/
def ultimateCanonical (c : Attempt) : Nat := c.duplicate_of_attempt_id.getD c.id

/-- Strict "earlier" order on candidates: earlier `started_at`, ties broken
by lower id. -/
def isEarlierCand (c d : Attempt) : Bool :=
  decide (c.started_at < d.started_at)
    || (decide (c.started_at = d.started_at) && decide (c.id < d.id))

/-- Modelled from the spec: pick the candidate with the earliest
`started_at`, ties broken by lowest candidate id. -/
def selectCanonical : List Attempt → Option Attempt
  | [] => none
  | c :: cs =>
    match selectCanonical cs with
    | none => some c
    | some d => if isEarlierCand d c then some d else some c

/-- Modelled from the spec: `find_duplicate(new_attempt, candidates)`;
candidates are already restricted to the same student, same test and the
7-minute window by the candidate lookup. -/
def find_duplicate (n : Attempt) (candidates : List Attempt) : DuplicateDecision :=
  match selectCanonical (candidates.filter (fun c => qualifiesB n c)) with
  | none => DuplicateDecision.NOT_DUPLICATE
  | some c => DuplicateDecision.DUPLICATE_OF (ultimateCanonical c)

/-- The flattened-chain invariant of the attempt store: every non-null
`duplicate_of_attempt_id` points to a stored attempt whose own pointer is
null. -/
def canonicalInvB (store : List Attempt) : Bool :=
  store.all (fun a =>
    match a.duplicate_of_attempt_id with
    | none => true
    | some t => store.any
        (fun b => decide (b.id = t ∧ b.duplicate_of_attempt_id = none)))

/-- The write the Orchestrator performs on a duplicate decision: link the
new attempt to the canonical target. -/
def applyDuplicateLink (n : Attempt) (t : Nat) : Attempt :=
  { n with duplicate_of_attempt_id := some t }

theorem isEarlierCand_iff {c d : Attempt} :
    isEarlierCand c d = true ↔
      (c.started_at < d.started_at
        ∨ (c.started_at = d.started_at ∧ c.id < d.id)) := by
  unfold isEarlierCand
  simp [Bool.or_eq_true, Bool.and_eq_true, decide_eq_true_eq]

theorem selectCanonical_none {l : List Attempt}
    (h : selectCanonical l = none) : l = [] := by
  cases l with
  | nil => rfl
  | cons c cs =>
    exfalso
    unfold selectCanonical at h
    cases hcs : selectCanonical cs with
    | none => rw [hcs] at h; simp at h
    | some d =>
      rw [hcs] at h
      by_cases hb : isEarlierCand d c <;> simp [hb] at h

theorem selectCanonical_spec {l : List Attempt} {c : Attempt}
    (h : selectCanonical l = some c) :
    c ∈ l ∧ ∀ d ∈ l, c.started_at < d.started_at
      ∨ (c.started_at = d.started_at ∧ c.id ≤ d.id) := by
  induction l generalizing c with
  | nil => simp [selectCanonical] at h
  | cons x xs ih =>
    unfold selectCanonical at h
    cases hxs : selectCanonical xs with
    | none =>
      rw [hxs] at h
      simp only [Option.some.injEq] at h
      subst h
      have hnil := selectCanonical_none hxs
      subst hnil
      refine ⟨by simp, ?_⟩
      intro d hd
      rcases List.mem_cons.mp hd with rfl | h'
      · exact Or.inr ⟨rfl, le_refl _⟩
      · simp at h'
    | some d =>
      rw [hxs] at h
      have h' : (if isEarlierCand d x then some d else some x) = some c := h
      obtain ⟨hdmem, hdmin⟩ := ih hxs
      by_cases hb : isEarlierCand d x
      · rw [if_pos hb] at h'
        simp only [Option.some.injEq] at h'
        subst h'
        refine ⟨List.mem_cons.mpr (Or.inr hdmem), ?_⟩
        intro e he
        rcases List.mem_cons.mp he with rfl | he'
        · rcases isEarlierCand_iff.mp hb with h1 | ⟨h1, h2⟩
          · exact Or.inl h1
          · exact Or.inr ⟨h1, Nat.le_of_lt h2⟩
        · exact hdmin e he'
      · rw [if_neg hb] at h'
        simp only [Option.some.injEq] at h'
        subst h'
        refine ⟨List.mem_cons.mpr (Or.inl rfl), ?_⟩
        intro e he
        have hxd : x.started_at < d.started_at
            ∨ (x.started_at = d.started_at ∧ x.id ≤ d.id) := by
          have hnb : ¬(d.started_at < x.started_at
              ∨ (d.started_at = x.started_at ∧ d.id < x.id)) :=
            fun hcon => hb (isEarlierCand_iff.mpr hcon)
          push_neg at hnb
          rcases lt_trichotomy x.started_at d.started_at with h1 | h1 | h1
          · exact Or.inl h1
          · refine Or.inr ⟨h1, ?_⟩
            have := hnb.2 h1.symm
            omega
          · exact absurd h1 (not_lt.mpr hnb.1)
        rcases List.mem_cons.mp he with rfl | he'
        · exact Or.inr ⟨rfl, le_refl _⟩
        · have hde := hdmin e he'
          rcases hxd with h1 | ⟨h1, h2⟩ <;> rcases hde with h3 | ⟨h3, h4⟩
          · exact Or.inl (lt_trans h1 h3)
          · exact Or.inl (h3 ▸ h1)
          · exact Or.inl (h1 ▸ h3)
          · exact Or.inr ⟨h1.trans h3, le_trans h2 h4⟩

theorem qualifiesB_iff (n c : Attempt) :
    qualifiesB n c = true ↔
      ((commonKeys n.answers c.answers).Nonempty
        ∧ (92 : ℚ) / 100 ≤ answer_similarity n.answers c.answers) := by
  unfold qualifiesB
  rw [Bool.and_eq_true, decide_eq_true_eq, decide_eq_true_eq]
  constructor
  · rintro ⟨hcard, hle⟩
    refine ⟨Finset.card_ne_zero.mp hcard, ?_⟩
    have hk : (0 : ℚ) < ((commonKeys n.answers c.answers).card : ℚ) := by
      exact_mod_cast Nat.pos_of_ne_zero hcard
    rw [answer_similarity, div_le_div_iff₀ (by norm_num) hk]
    exact_mod_cast (by omega :
      92 * (commonKeys n.answers c.answers).card
        ≤ matchingCount n.answers c.answers * 100)
  · rintro ⟨hne, hle⟩
    have hcard : (commonKeys n.answers c.answers).card ≠ 0 :=
      Finset.card_ne_zero.mpr hne
    refine ⟨hcard, ?_⟩
    have hk : (0 : ℚ) < ((commonKeys n.answers c.answers).card : ℚ) := by
      exact_mod_cast Nat.pos_of_ne_zero hcard
    rw [answer_similarity, div_le_div_iff₀ (by norm_num) hk] at hle
    have : 92 * (commonKeys n.answers c.answers).card
        ≤ matchingCount n.answers c.answers * 100 := by exact_mod_cast hle
    omega

/-- C1: `find_duplicate` returns `NOT_DUPLICATE` when no candidate
qualifies (in particular on an empty candidate list); a candidate qualifies
exactly when `common_keys = keys(a.answers) ∩ keys(b.answers)` is non-empty
and `matching / |common_keys|` is at least 0.92, where `matching` counts the
common questions with exactly equal answer tokens (`SKIP` an ordinary
distinct token); a candidate with empty `common_keys` never qualifies. -/
theorem claim_C1_not_duplicate_and_threshold
    (n : Attempt) (candidates : List Attempt) (c : Attempt) :
    ((∀ d ∈ candidates, qualifiesB n d = false) →
      find_duplicate n candidates = DuplicateDecision.NOT_DUPLICATE)
    ∧ (qualifiesB n c = true ↔
        ((commonKeys n.answers c.answers).Nonempty
          ∧ (92 : ℚ) / 100 ≤ answer_similarity n.answers c.answers))
    ∧ (commonKeys n.answers c.answers = ∅ → qualifiesB n c = false) := by
  refine ⟨?_, qualifiesB_iff n c, ?_⟩
  · intro h
    have hfilter : candidates.filter (fun d => qualifiesB n d) = [] := by
      rw [List.filter_eq_nil_iff]
      intro a ha
      rw [h a ha]
      simp
    unfold find_duplicate
    rw [hfilter]
    rfl
  · intro hempty
    unfold qualifiesB
    rw [hempty]
    simp

/-- A concrete new attempt for the C1 witness. -/
def c1NewAttempt : Attempt :=
  { id := 2, started_at := 3, duplicate_of_attempt_id := none,
    answers := [(1, "A"), (2, "B")] }

/-- A concrete non-qualifying candidate for the C1 witness: both keys are
shared but only one of two answers matches (similarity 1/2 < 0.92). -/
def c1Candidate : Attempt :=
  { id := 1, started_at := 0, duplicate_of_attempt_id := none,
    answers := [(1, "A"), (2, "C")] }

/-- Witness for C1 at concrete data: the only candidate does not qualify,
so `find_duplicate` returns `NOT_DUPLICATE`. -/
theorem claim_C1_witness :
    (∀ d ∈ [c1Candidate], qualifiesB c1NewAttempt d = false)
    ∧ find_duplicate c1NewAttempt [c1Candidate]
        = DuplicateDecision.NOT_DUPLICATE :=
  ⟨by decide,
    (claim_C1_not_duplicate_and_threshold c1NewAttempt [c1Candidate]
      c1Candidate).1 (by decide)⟩

/-- C3: when some candidate qualifies, `find_duplicate` picks the earliest
qualifying candidate (`started_at`, ties by lowest id) and links to that
candidate's ultimate canonical (the candidate's own pointer if set, else
the candidate itself); consequently, when the store satisfies the
flattened-chain invariant, the produced link points to an attempt with a
null pointer and appending the linked attempt preserves the invariant. -/
theorem claim_C3_earliest_canonical_flattened
    (n : Attempt) (candidates store : List Attempt) (t : Nat)
    (hfd : find_duplicate n candidates = DuplicateDecision.DUPLICATE_OF t) :
    (∃ c ∈ candidates, qualifiesB n c = true ∧ t = ultimateCanonical c
      ∧ ∀ d ∈ candidates, qualifiesB n d = true →
          c.started_at < d.started_at
          ∨ (c.started_at = d.started_at ∧ c.id ≤ d.id))
    ∧ ((∀ c ∈ candidates, c ∈ store) → canonicalInvB store = true →
        (∃ b ∈ store, b.id = t ∧ b.duplicate_of_attempt_id = none)
        ∧ canonicalInvB (store ++ [applyDuplicateLink n t]) = true) := by
  unfold find_duplicate at hfd
  cases hsel : selectCanonical (candidates.filter (fun c => qualifiesB n c)) with
  | none => rw [hsel] at hfd; exact absurd hfd (by simp)
  | some c =>
    rw [hsel] at hfd
    simp only [DuplicateDecision.DUPLICATE_OF.injEq] at hfd
    obtain ⟨hcmem, hcmin⟩ := selectCanonical_spec hsel
    have hcand : c ∈ candidates := (List.mem_filter.mp hcmem).1
    have hqual : qualifiesB n c = true := (List.mem_filter.mp hcmem).2
    have hmain : ∃ c' ∈ candidates, qualifiesB n c' = true
        ∧ t = ultimateCanonical c'
        ∧ ∀ d ∈ candidates, qualifiesB n d = true →
            c'.started_at < d.started_at
            ∨ (c'.started_at = d.started_at ∧ c'.id ≤ d.id) := by
      refine ⟨c, hcand, hqual, hfd.symm, ?_⟩
      intro d hd hq
      exact hcmin d (List.mem_filter.mpr ⟨hd, hq⟩)
    refine ⟨hmain, ?_⟩
    intro hsub hinv
    have hinv' : ∀ a ∈ store, ∀ u, a.duplicate_of_attempt_id = some u →
        ∃ b ∈ store, b.id = u ∧ b.duplicate_of_attempt_id = none := by
      intro a ha u hu
      have := (List.all_eq_true.mp hinv) a ha
      rw [hu] at this
      rcases List.any_eq_true.mp this with ⟨b, hb, hbeq⟩
      exact ⟨b, hb, of_decide_eq_true hbeq⟩
    have hexists : ∃ b ∈ store, b.id = t ∧ b.duplicate_of_attempt_id = none := by
      cases hdup : c.duplicate_of_attempt_id with
      | none =>
        refine ⟨c, hsub c hcand, ?_, hdup⟩
        rw [hfd.symm]
        unfold ultimateCanonical
        rw [hdup]
        rfl
      | some u =>
        have ht : t = u := by
          rw [hfd.symm]
          unfold ultimateCanonical
          rw [hdup]
          rfl
        rw [ht]
        exact hinv' c (hsub c hcand) u hdup
    refine ⟨hexists, ?_⟩
    rw [canonicalInvB, List.all_eq_true]
    intro a ha
    rcases List.mem_append.mp ha with hstore | hnew
    · cases hdup : a.duplicate_of_attempt_id with
      | none => simp
      | some u =>
        simp only []
        rw [List.any_eq_true]
        obtain ⟨b, hb, hbp⟩ := hinv' a hstore u hdup
        exact ⟨b, List.mem_append.mpr (Or.inl hb), decide_eq_true hbp⟩
    · have ha' : a = applyDuplicateLink n t := by simpa using hnew
      rw [ha']
      show (match (applyDuplicateLink n t).duplicate_of_attempt_id with
        | none => true
        | some u => (store ++ [applyDuplicateLink n t]).any
            (fun b => decide (b.id = u ∧ b.duplicate_of_attempt_id = none))) = true
      rw [show (applyDuplicateLink n t).duplicate_of_attempt_id = some t from rfl]
      rw [List.any_eq_true]
      obtain ⟨b, hb, hbp⟩ := hexists
      exact ⟨b, List.mem_append.mpr (Or.inl hb), decide_eq_true hbp⟩

/-- The canonical attempt (id 1) of the C3 witness store. -/
def c3Canonical : Attempt :=
  { id := 1, started_at := 0, duplicate_of_attempt_id := none,
    answers := [(1, "A")] }

/-- The already-deduplicated attempt (id 2, pointing at id 1) of the C3
witness store. -/
def c3Duplicate : Attempt :=
  { id := 2, started_at := 5, duplicate_of_attempt_id := some 1,
    answers := [(1, "A")] }

/-- The new matching attempt of the C3 witness. -/
def c3NewAttempt : Attempt :=
  { id := 3, started_at := 7, duplicate_of_attempt_id := none,
    answers := [(1, "A")] }

/-- Witness for C3: the new attempt dedups against candidate 2 but is
linked to the ultimate canonical 1, and the flattened-chain invariant is
preserved on the extended store. -/
theorem claim_C3_witness :
    find_duplicate c3NewAttempt [c3Duplicate]
      = DuplicateDecision.DUPLICATE_OF 1
    ∧ ((∃ b ∈ [c3Canonical, c3Duplicate],
          b.id = 1 ∧ b.duplicate_of_attempt_id = none)
      ∧ canonicalInvB ([c3Canonical, c3Duplicate]
          ++ [applyDuplicateLink c3NewAttempt 1]) = true) :=
  ⟨by decide,
    (claim_C3_earliest_canonical_flattened c3NewAttempt [c3Duplicate]
      [c3Canonical, c3Duplicate] 1 (by decide)).2 (by decide) (by decide)⟩

/-! ### Scoring Engine (spec §4.4; backend `scoring.py` is not in the
sources, so these are modelled from the spec) -/

/-- Modelled from the spec: a marking scheme `{correct, wrong, skip}` of
per-question point deltas. -/
structure MarkingScheme where
  correct : Int
  wrong : Int
  skip : Int
deriving DecidableEq

/-- Classification outcome of one submitted answer. -/
inductive AnswerClass where
  | correct : AnswerClass
  | wrong : AnswerClass
  | skipped : AnswerClass
deriving DecidableEq, BEq

/-- Modelled from the spec: classification per question `q` with submitted
answer `a` — `SKIP` → skipped; else wrong when an answer key is provided
and disagrees; else correct (no key, or the key agrees). The optional
answer key is a total map from question id to token. -/
def classifyAnswer (key : Option (Nat → String)) (q : Nat) (a : String) :
    AnswerClass :=
  if a = SKIP then AnswerClass.skipped
  else
    match key with
    | none => AnswerClass.correct
    | some k => if a = k q then AnswerClass.correct else AnswerClass.wrong

/-- Count of questions classified correct. -/
def countCorrect (answers : List (Nat × String))
    (key : Option (Nat → String)) : Nat :=
  (answers.map (fun p => classifyAnswer key p.1 p.2)).count AnswerClass.correct

/-- Count of questions classified wrong. -/
def countWrong (answers : List (Nat × String))
    (key : Option (Nat → String)) : Nat :=
  (answers.map (fun p => classifyAnswer key p.1 p.2)).count AnswerClass.wrong

/-- Count of questions classified skipped. -/
def countSkipped (answers : List (Nat × String))
    (key : Option (Nat → String)) : Nat :=
  (answers.map (fun p => classifyAnswer key p.1 p.2)).count AnswerClass.skipped

/-- Accuracy in hundredths of a percent: `(correct/(correct+wrong))·100`
rounded half-up to two decimals, computed with integer arithmetic; 0 when
`correct + wrong = 0`. -/
def accCenti (c w : Nat) : Nat :=
  if c + w = 0 then 0 else (20000 * c + (c + w)) / (2 * (c + w))

/-- A computed score breakdown. -/
structure Score where
  correct : Nat
  wrong : Nat
  skipped : Nat
  score : Int
  accuracy : ℚ
  net_correct : Int
deriving DecidableEq

/-- Rounding of a rational to two decimal places (round half up), as the
score report does for `accuracy`. -/
def round2 (x : ℚ) : ℚ := ((round (x * 100) : ℤ) : ℚ) / 100

/-- Modelled from the spec: `compute_score(answers, marking_scheme,
answer_key?)` — pure, deterministic; classifies every question of the
answers map and applies the score/accuracy/net formulas. -/
def compute_score (answers : List (Nat × String)) (m : MarkingScheme)
    (key : Option (Nat → String)) : Score :=
  { correct := countCorrect answers key,
    wrong := countWrong answers key,
    skipped := countSkipped answers key,
    score := (countCorrect answers key : Int) * m.correct
      + (countWrong answers key : Int) * m.wrong
      + (countSkipped answers key : Int) * m.skip,
    accuracy := (accCenti (countCorrect answers key) (countWrong answers key) : ℚ) / 100,
    net_correct := (countCorrect answers key : Int) - (countWrong answers key : Int) }

theorem accCenti_eq_round2 {c w : Nat} (h : c + w ≠ 0) :
    (accCenti c w : ℚ) / 100 = round2 (((c : ℚ) / ((c : ℚ) + (w : ℚ))) * 100) := by
  have hq : ((c : ℚ) + (w : ℚ)) ≠ 0 := by
    have h2 : ((c + w : ℕ) : ℚ) ≠ 0 := Nat.cast_ne_zero.mpr h
    push_cast at h2
    exact h2
  suffices hfloor : ((accCenti c w : ℕ) : ℤ)
      = ⌊(c : ℚ) / ((c : ℚ) + (w : ℚ)) * 100 * 100 + 1 / 2⌋ by
    unfold round2
    rw [round_eq, ← hfloor]
    push_cast
    ring
  have harg : (c : ℚ) / ((c : ℚ) + (w : ℚ)) * 100 * 100 + 1 / 2
      = ((20000 * c + (c + w) : ℕ) : ℚ) / ((2 * (c + w) : ℕ) : ℚ) := by
    push_cast
    field_simp
    ring
  rw [harg, Rat.floor_natCast_div_natCast]
  unfold accCenti
  rw [if_neg h]
  exact Int.natCast_div _ _

/-- The spec's formula-check marking scheme `{correct: 4, wrong: -1, skip: 0}`. -/
def mark230Scheme : MarkingScheme := { correct := 4, wrong := -1, skip := 0 }

/-- A 75-question answers map with 70 answered `"A"` and 5 `SKIP`. -/
def mark230Answers : List (Nat × String) :=
  (List.range 75).map (fun q => (q, if q < 70 then "A" else SKIP))

/-- An answer key agreeing on the first 60 questions and disagreeing on the
rest, yielding 60 correct / 10 wrong / 5 skipped on `mark230Answers`. -/
def mark230Key : Nat → String := fun q => if q < 60 then "A" else "B"

/-- C2: `compute_score` classifies a question skipped when the answer is
`SKIP`, wrong when an answer key is provided and disagrees, and correct
otherwise (no key, or the key agrees); it returns
`score = correct·marking.correct + wrong·marking.wrong + skipped·marking.skip`,
`net_correct = correct - wrong`, and `accuracy = (correct/(correct+wrong))·100`
reported to two decimals (0 when `correct + wrong = 0`); on the spec's
formula check (60 correct, 10 wrong, 5 skipped with `{4, -1, 0}`) it yields
score 230, accuracy 85.71 and net_correct 50. -/
theorem claim_C2_compute_score (answers : List (Nat × String))
    (m : MarkingScheme) (key : Option (Nat → String)) (k : Nat → String)
    (q : Nat) (a : String) :
    (a = SKIP → classifyAnswer key q a = AnswerClass.skipped)
    ∧ (a ≠ SKIP → a ≠ k q → classifyAnswer (some k) q a = AnswerClass.wrong)
    ∧ (a ≠ SKIP → classifyAnswer none q a = AnswerClass.correct)
    ∧ (a ≠ SKIP → a = k q → classifyAnswer (some k) q a = AnswerClass.correct)
    ∧ (compute_score answers m key).score
        = ((compute_score answers m key).correct : Int) * m.correct
          + ((compute_score answers m key).wrong : Int) * m.wrong
          + ((compute_score answers m key).skipped : Int) * m.skip
    ∧ (compute_score answers m key).net_correct
        = ((compute_score answers m key).correct : Int)
          - ((compute_score answers m key).wrong : Int)
    ∧ ((compute_score answers m key).correct
          + (compute_score answers m key).wrong = 0 →
        (compute_score answers m key).accuracy = 0)
    ∧ ((compute_score answers m key).correct
          + (compute_score answers m key).wrong ≠ 0 →
        (compute_score answers m key).accuracy
          = round2 ((((compute_score answers m key).correct : ℚ)
              / (((compute_score answers m key).correct : ℚ)
                + ((compute_score answers m key).wrong : ℚ))) * 100))
    ∧ (compute_score mark230Answers mark230Scheme (some mark230Key)).correct = 60
    ∧ (compute_score mark230Answers mark230Scheme (some mark230Key)).wrong = 10
    ∧ (compute_score mark230Answers mark230Scheme (some mark230Key)).skipped = 5
    ∧ (compute_score mark230Answers mark230Scheme (some mark230Key)).score = 230
    ∧ (compute_score mark230Answers mark230Scheme (some mark230Key)).accuracy
        = 8571 / 100
    ∧ (compute_score mark230Answers mark230Scheme (some mark230Key)).net_correct
        = 50 := by
  refine ⟨?_, ?_, ?_, ?_, rfl, rfl, ?_, ?_, by decide, by decide, by decide,
    by decide, ?_, by decide⟩
  · intro ha
    unfold classifyAnswer
    rw [if_pos ha]
  · intro ha hk
    unfold classifyAnswer
    rw [if_neg ha]
    simp only []
    rw [if_neg hk]
  · intro ha
    unfold classifyAnswer
    rw [if_neg ha]
  · intro ha hk
    unfold classifyAnswer
    rw [if_neg ha]
    simp only []
    rw [if_pos hk]
  · intro h0
    have h0' : countCorrect answers key + countWrong answers key = 0 := h0
    show (accCenti (countCorrect answers key) (countWrong answers key) : ℚ) / 100 = 0
    unfold accCenti
    rw [if_pos h0']
    norm_num
  · intro hne
    exact accCenti_eq_round2 hne
  · have hc : countCorrect mark230Answers (some mark230Key) = 60 := by decide
    have hw : countWrong mark230Answers (some mark230Key) = 10 := by decide
    show (accCenti (countCorrect mark230Answers (some mark230Key))
      (countWrong mark230Answers (some mark230Key)) : ℚ) / 100 = 8571 / 100
    rw [hc, hw]
    have ha : accCenti 60 10 = 8571 := by decide
    rw [ha]
    norm_num

/-- Witness for C2: a concrete wrong classification (answer `"A"` against
key token `"B"`), and the two-decimal accuracy formula instantiated on the
formula-check data where `correct + wrong = 70 ≠ 0`. -/
theorem claim_C2_witness :
    classifyAnswer (some mark230Key) 65 "A" = AnswerClass.wrong
    ∧ (compute_score mark230Answers mark230Scheme (some mark230Key)).accuracy
      = round2 ((((compute_score mark230Answers mark230Scheme
            (some mark230Key)).correct : ℚ)
          / (((compute_score mark230Answers mark230Scheme
            (some mark230Key)).correct : ℚ)
            + ((compute_score mark230Answers mark230Scheme
              (some mark230Key)).wrong : ℚ))) * 100) :=
  ⟨(claim_C2_compute_score [] mark230Scheme none mark230Key 65 "A").2.1
      (by decide) (by decide),
    (claim_C2_compute_score mark230Answers mark230Scheme (some mark230Key)
      mark230Key 0 "A").2.2.2.2.2.2.2.1 (by decide)⟩

/-! ### Ingestion state machine (spec §4.5; the orchestrator is not in the
sources, so it is modelled from the spec) -/

/-- Attempt lifecycle status. -/
inductive AttemptStatus where
  | INGESTED : AttemptStatus
  | DEDUPED : AttemptStatus
  | SCORED : AttemptStatus
  | FLAGGED : AttemptStatus
deriving DecidableEq

/-- Modelled from the spec: the per-attempt state the orchestrator and the
recompute action operate on. -/
structure AttemptState where
  status : AttemptStatus
  answers : List (Nat × String)
  score : Option Score
  duplicate_of_attempt_id : Option Nat
deriving DecidableEq

/-- Errors surfaced by single-attempt actions. -/
inductive StateError where
  | InvalidStateError : StateError
  | NotFoundError : StateError
deriving DecidableEq

/-- Modelled from the spec: finalize one ingested attempt from the
deduplication decision — a duplicate is linked and becomes `DEDUPED` with
no Score; a non-duplicate is scored and becomes `SCORED`. -/
def finalizeIngest (a : AttemptState) (decision : DuplicateDecision)
    (m : MarkingScheme) (key : Option (Nat → String)) : AttemptState :=
  match decision with
  | DuplicateDecision.DUPLICATE_OF t =>
    { a with
      status := AttemptStatus.DEDUPED
      duplicate_of_attempt_id := some t
      score := none }
  | DuplicateDecision.NOT_DUPLICATE =>
    { a with
      status := AttemptStatus.SCORED
      score := some (compute_score a.answers m key) }

/-- Modelled from the spec: the `recompute` action — fails with
`InvalidStateError` on a `DEDUPED` attempt, otherwise re-runs the Scoring
Engine and replaces the Score (an `INGESTED` attempt becomes `SCORED`, a
`FLAGGED` one stays `FLAGGED`). -/
def recompute (a : AttemptState) (m : MarkingScheme)
    (key : Option (Nat → String)) : Except StateError AttemptState :=
  if a.status = AttemptStatus.DEDUPED then
    Except.error StateError.InvalidStateError
  else
    Except.ok { a with
      score := some (compute_score a.answers m key),
      status := if a.status = AttemptStatus.INGESTED then AttemptStatus.SCORED
        else a.status }

/-- The state actually stored after a recompute request: unchanged when the
action fails. -/
def applyRecompute (a : AttemptState) (m : MarkingScheme)
    (key : Option (Nat → String)) : AttemptState :=
  match recompute a m key with
  | Except.ok b => b
  | Except.error _ => a

/-- Fold any sequence of recompute requests over an attempt. -/
def applyRecomputeAll (a : AttemptState)
    (ops : List (MarkingScheme × Option (Nat → String))) : AttemptState :=
  ops.foldl (fun st op => applyRecompute st op.1 op.2) a

theorem applyRecomputeAll_deduped {b : AttemptState}
    (hb : b.status = AttemptStatus.DEDUPED)
    (ops : List (MarkingScheme × Option (Nat → String))) :
    applyRecomputeAll b ops = b := by
  induction ops with
  | nil => rfl
  | cons op ops ih =>
    show applyRecomputeAll (applyRecompute b op.1 op.2) ops = b
    have hstep : applyRecompute b op.1 op.2 = b := by
      unfold applyRecompute recompute
      rw [if_pos hb]
    rw [hstep]
    exact ih

/-- C8: recompute on a `DEDUPED` attempt fails with `InvalidStateError` and
leaves the state unchanged; an attempt finalized `INGESTED → DEDUPED` has
no Score and keeps none under any sequence of recompute requests —
duplicates are never independently scored. -/
theorem claim_C8_recompute_deduped (a : AttemptState) (m : MarkingScheme)
    (key : Option (Nat → String)) (t : Nat)
    (ops : List (MarkingScheme × Option (Nat → String))) :
    (a.status = AttemptStatus.DEDUPED →
      recompute a m key = Except.error StateError.InvalidStateError
      ∧ applyRecompute a m key = a)
    ∧ (finalizeIngest a (DuplicateDecision.DUPLICATE_OF t) m key).score = none
    ∧ (finalizeIngest a (DuplicateDecision.DUPLICATE_OF t) m key).status
        = AttemptStatus.DEDUPED
    ∧ applyRecomputeAll (finalizeIngest a (DuplicateDecision.DUPLICATE_OF t) m key)
        ops = finalizeIngest a (DuplicateDecision.DUPLICATE_OF t) m key := by
  refine ⟨?_, rfl, rfl, applyRecomputeAll_deduped rfl ops⟩
  intro h
  constructor
  · unfold recompute
    rw [if_pos h]
  · unfold applyRecompute recompute
    rw [if_pos h]

/-- Marking scheme for the C8 witness. -/
def c8Scheme : MarkingScheme := { correct := 4, wrong := -1, skip := 0 }

/-- A concrete `DEDUPED` attempt for the C8 witness. -/
def c8Deduped : AttemptState :=
  { status := AttemptStatus.DEDUPED, answers := [(1, "A")],
    score := none, duplicate_of_attempt_id := some 1 }

/-- Witness for C8: recompute on a concrete `DEDUPED` attempt errors and
changes nothing. -/
theorem claim_C8_witness :
    recompute c8Deduped c8Scheme none
      = Except.error StateError.InvalidStateError
    ∧ applyRecompute c8Deduped c8Scheme none = c8Deduped :=
  (claim_C8_recompute_deduped c8Deduped c8Scheme none 1 []).1 (by decide)

/-! ### Batch ingestion counters (the `IngestResponse` shape is translated
from `frontend/src/api/client.ts`; the orchestrator's skip-on-existing
behaviour is modelled from the spec §6/§7) -/

/-- Per-event outcome recorded in the batch results. -/
inductive EventStatus where
  | INGESTED : EventStatus
  | DUPLICATE : EventStatus
  | ERROR : EventStatus
  | SKIPPED : EventStatus
deriving DecidableEq

/-- One entry of the per-event results list (the `attempt_id`/`message`
fields of `client.ts` are not needed by the claims and are omitted). -/
structure EventResult where
  source_event_id : Nat
  status : EventStatus
deriving DecidableEq

/-- From `frontend/src/api/client.ts` (`IngestResponse`): the batch result
carries the five counters `ingested`, `duplicates`, `errors`, `skipped`,
`warnings` alongside the per-event results. -/
structure IngestResponse where
  ingested : Nat
  duplicates : Nat
  errors : Nat
  skipped : Nat
  warnings : Nat
  results : List EventResult
deriving DecidableEq

/-- One raw event of a batch, identified by its `source_event_id`. -/
structure IngestEvent where
  source_event_id : Nat
  payload : List (Nat × String)
deriving DecidableEq

/-- Outcome of the per-event pipeline on a fresh (not yet seen) event. -/
inductive FreshStatus where
  | INGESTED : FreshStatus
  | DUPLICATE : FreshStatus
  | ERROR : FreshStatus
deriving DecidableEq

/-- Result of the per-event pipeline: outcome plus the number of warnings
it emitted (e.g. defaulted marking-scheme fields). -/
structure FreshResult where
  status : FreshStatus
  warnings : Nat
deriving DecidableEq

/-- Modelled from the spec: one step of the batch orchestrator over
(store, already-ingested source ids, running response). An event whose
`source_event_id` already exists is counted `skipped` and is NOT handed to
the per-event pipeline `f`; otherwise `f` processes it and the counter
matching its outcome is bumped (an errored event is not remembered as
ingested). -/
def ingestStep {S : Type} (f : S → IngestEvent → FreshResult × S)
    (st : S × List Nat × IngestResponse) (e : IngestEvent) :
    S × List Nat × IngestResponse :=
  if e.source_event_id ∈ st.2.1 then
    (st.1, st.2.1,
      { st.2.2 with
        skipped := st.2.2.skipped + 1
        results := st.2.2.results
          ++ [{ source_event_id := e.source_event_id
                status := EventStatus.SKIPPED }] })
  else
    match f st.1 e with
    | (fr, s') =>
      match fr.status with
      | FreshStatus.INGESTED =>
        (s', e.source_event_id :: st.2.1,
          { st.2.2 with
            ingested := st.2.2.ingested + 1
            warnings := st.2.2.warnings + fr.warnings
            results := st.2.2.results
              ++ [{ source_event_id := e.source_event_id
                    status := EventStatus.INGESTED }] })
      | FreshStatus.DUPLICATE =>
        (s', e.source_event_id :: st.2.1,
          { st.2.2 with
            duplicates := st.2.2.duplicates + 1
            warnings := st.2.2.warnings + fr.warnings
            results := st.2.2.results
              ++ [{ source_event_id := e.source_event_id
                    status := EventStatus.DUPLICATE }] })
      | FreshStatus.ERROR =>
        (s', st.2.1,
          { st.2.2 with
            errors := st.2.2.errors + 1
            results := st.2.2.results
              ++ [{ source_event_id := e.source_event_id
                    status := EventStatus.ERROR }] })

/-- Modelled from the spec: batch ingestion folds `ingestStep` over the
events; one bad event never aborts the rest. -/
def ingestBatch {S : Type} (f : S → IngestEvent → FreshResult × S)
    (init : S × List Nat × IngestResponse) (events : List IngestEvent) :
    S × List Nat × IngestResponse :=
  events.foldl (ingestStep f) init

/-- C4: the batch result carries the counters `ingested`, `duplicates`,
`errors`, `skipped`, `warnings` alongside the per-event results, and
re-posting an event whose `source_event_id` already exists increments only
`skipped` — never `ingested` or `errors` — appends a `SKIPPED` per-event
result, leaves the store and the seen-set unchanged, and does not run the
per-event pipeline at all (the step is the same for every pipeline). -/
theorem claim_C4_skip_existing_event {S : Type}
    (f g : S → IngestEvent → FreshResult × S) (σ : S) (seen : List Nat)
    (r : IngestResponse) (e : IngestEvent)
    (hmem : e.source_event_id ∈ seen) :
    ingestStep f (σ, seen, r) e
      = (σ, seen,
        { ingested := r.ingested, duplicates := r.duplicates,
          errors := r.errors, skipped := r.skipped + 1,
          warnings := r.warnings,
          results := r.results
            ++ [{ source_event_id := e.source_event_id,
                  status := EventStatus.SKIPPED }] })
    ∧ ingestStep f (σ, seen, r) e = ingestStep g (σ, seen, r) e := by
  constructor
  · unfold ingestStep
    rw [if_pos hmem]
  · unfold ingestStep
    rw [if_pos hmem, if_pos hmem]

/-- A per-event pipeline that would ingest everything (C4 witness). -/
def c4ProcA : Nat → IngestEvent → FreshResult × Nat :=
  fun s _ => ({ status := FreshStatus.INGESTED, warnings := 0 }, s + 1)

/-- A different per-event pipeline that would reject everything (C4
witness). -/
def c4ProcB : Nat → IngestEvent → FreshResult × Nat :=
  fun s _ => ({ status := FreshStatus.ERROR, warnings := 3 }, s + 7)

/-- A running batch response for the C4 witness. -/
def c4Resp : IngestResponse :=
  { ingested := 2, duplicates := 1, errors := 0, skipped := 0,
    warnings := 0, results := [] }

/-- A re-posted event whose `source_event_id` 5 already exists (C4
witness). -/
def c4Event : IngestEvent := { source_event_id := 5, payload := [] }

/-- Witness for C4: re-posting source id 5 bumps only `skipped` and the
step does not depend on the per-event pipeline. -/
theorem claim_C4_witness :
    ingestStep c4ProcA ((0 : Nat), [5], c4Resp) c4Event
      = ((0 : Nat), [5],
        { ingested := 2, duplicates := 1, errors := 0, skipped := 1,
          warnings := 0,
          results := [{ source_event_id := 5, status := EventStatus.SKIPPED }] })
    ∧ ingestStep c4ProcA ((0 : Nat), [5], c4Resp) c4Event
      = ingestStep c4ProcB ((0 : Nat), [5], c4Resp) c4Event :=
  ⟨(claim_C4_skip_existing_event c4ProcA c4ProcB 0 [5] c4Resp c4Event
      (by decide)).1,
    (claim_C4_skip_existing_event c4ProcA c4ProcB 0 [5] c4Resp c4Event
      (by decide)).2⟩

/-! ### Upload & Analyze page (translated from
`frontend/src/pages/UploadAnalyze.tsx`) -/

/-- The page state relevant to file selection: the accepted file name and
the error banner. -/
structure UploadPageState where
  file : Option String
  error : Option String
deriving DecidableEq

/-- The error banner text set by `handleFile` for a bad extension. -/
def uploadErrorMsg : String := "Please upload a .json or .csv file"

/-- From `handleFile`: a file name is acceptable when its lower-cased form
ends in `.json` or `.csv`. -/
def validUploadName (name : String) : Bool :=
  ".json".data.isSuffixOf (lowerChars name.data)
    || ".csv".data.isSuffixOf (lowerChars name.data)

/-- From `UploadAnalyze.handleFile`: reject any other extension with the
error banner and keep the previous file; otherwise clear the error and
accept the file. -/
def handleFile (st : UploadPageState) (fname : String) : UploadPageState :=
  if !validUploadName fname then { st with error := some uploadErrorMsg }
  else { st with error := none, file := some fname }

/-- User interactions of the page that matter to file handling. -/
inductive UploadAction where
  | chooseFile (name : String) : UploadAction
  | analyzeClick : UploadAction
  | ingestClick : UploadAction

/-- An upload request issued to the backend, carrying the file it uploads. -/
inductive UploadRequest where
  | analyzeUpload (name : String) : UploadRequest
  | ingestUpload (name : String) : UploadRequest
deriving DecidableEq

/-- The file name an upload request transmits. -/
def requestFileName : UploadRequest → String
  | UploadRequest.analyzeUpload n => n
  | UploadRequest.ingestUpload n => n

/-- From `UploadAnalyze`: one interaction step — `handleFile` on file
choice; `handleAnalyze`/`handleIngest` return immediately when no file is
set and otherwise issue the upload request for the selected file. -/
def stepUpload (st : UploadPageState) :
    UploadAction → UploadPageState × List UploadRequest
  | UploadAction.chooseFile n => (handleFile st n, [])
  | UploadAction.analyzeClick =>
    match st.file with
    | none => (st, [])
    | some n => ({ st with error := none }, [UploadRequest.analyzeUpload n])
  | UploadAction.ingestClick =>
    match st.file with
    | none => (st, [])
    | some n => ({ st with error := none }, [UploadRequest.ingestUpload n])

/-- Run a sequence of interactions, collecting every issued request. -/
def runUpload (st : UploadPageState) :
    List UploadAction → UploadPageState × List UploadRequest
  | [] => (st, [])
  | a :: acts =>
    match stepUpload st a with
    | (st', reqs) =>
      match runUpload st' acts with
      | (st'', reqs') => (st'', reqs ++ reqs')

/-- The page's initial state: no file selected, no error. -/
def initUpload : UploadPageState := { file := none, error := none }

theorem handleFile_keeps_invariant {st : UploadPageState} {fname : String}
    (hst : ∀ n, st.file = some n → validUploadName n = true) :
    ∀ n, (handleFile st fname).file = some n → validUploadName n = true := by
  intro n hn
  unfold handleFile at hn
  cases hv : validUploadName fname with
  | false =>
    rw [if_pos (by rw [hv]; rfl)] at hn
    exact hst n hn
  | true =>
    rw [if_neg (by rw [hv]; simp)] at hn
    simp only [Option.some.injEq] at hn
    rw [← hn]
    exact hv

theorem runUpload_requests_valid (acts : List UploadAction) :
    ∀ st : UploadPageState,
      (∀ n, st.file = some n → validUploadName n = true) →
      (∀ req ∈ (runUpload st acts).2,
        validUploadName (requestFileName req) = true)
      ∧ (∀ n, (runUpload st acts).1.file = some n →
          validUploadName n = true) := by
  induction acts with
  | nil =>
    intro st hst
    exact ⟨by intro req hreq; simp [runUpload] at hreq, hst⟩
  | cons a acts ih =>
    intro st hst
    have hstep : ∀ st' reqs, stepUpload st a = (st', reqs) →
        (∀ n, st'.file = some n → validUploadName n = true)
        ∧ (∀ req ∈ reqs, validUploadName (requestFileName req) = true) := by
      intro st' reqs heq
      cases a with
      | chooseFile n =>
        unfold stepUpload at heq
        injection heq with h1 h2
        subst h1
        subst h2
        exact ⟨handleFile_keeps_invariant hst, by intro req hreq; simp at hreq⟩
      | analyzeClick =>
        unfold stepUpload at heq
        cases hf : st.file with
        | none =>
          rw [hf] at heq
          injection heq with h1 h2
          subst h1
          subst h2
          exact ⟨hst, by intro req hreq; simp at hreq⟩
        | some n =>
          rw [hf] at heq
          injection heq with h1 h2
          subst h1
          subst h2
          refine ⟨?_, ?_⟩
          · intro m hm
            have hnm : n = m := by simpa using hm
            rw [← hnm]
            exact hst n hf
          · intro req hreq
            rcases List.mem_singleton.mp hreq with rfl
            exact hst n hf
      | ingestClick =>
        unfold stepUpload at heq
        cases hf : st.file with
        | none =>
          rw [hf] at heq
          injection heq with h1 h2
          subst h1
          subst h2
          exact ⟨hst, by intro req hreq; simp at hreq⟩
        | some n =>
          rw [hf] at heq
          injection heq with h1 h2
          subst h1
          subst h2
          refine ⟨?_, ?_⟩
          · intro m hm
            have hnm : n = m := by simpa using hm
            rw [← hnm]
            exact hst n hf
          · intro req hreq
            rcases List.mem_singleton.mp hreq with rfl
            exact hst n hf
    rcases hse : stepUpload st a with ⟨st', reqs⟩
    obtain ⟨hst', hreqs⟩ := hstep st' reqs hse
    obtain ⟨hrest, hfinal⟩ := ih st' hst'
    rcases hr : runUpload st' acts with ⟨st2, reqs2⟩
    rw [hr] at hrest hfinal
    have hrun : runUpload st (a :: acts) = (st2, reqs ++ reqs2) := by
      unfold runUpload
      rw [hse]
      show (match runUpload st' acts with
        | (st'', reqs') => (st'', reqs ++ reqs')) = (st2, reqs ++ reqs2)
      rw [hr]
    constructor
    · intro req hreq
      rw [hrun] at hreq
      rcases List.mem_append.mp hreq with h1 | h1
      · exact hreqs req h1
      · exact hrest req h1
    · intro n hn
      rw [hrun] at hn
      exact hfinal n hn

/-- C9: `handleFile` rejects every file whose lower-cased name ends in
neither `.json` nor `.csv`, setting the error banner
`"Please upload a .json or .csv file"` and not accepting the file; as the
accepted-file invariant is preserved by every interaction, no analyze or
ingest upload request is ever issued for a file of any other extension. -/
theorem claim_C9_upload_extension_guard (st : UploadPageState)
    (fname : String) (acts : List UploadAction) :
    (validUploadName fname = false →
      handleFile st fname = { st with error := some uploadErrorMsg }
      ∧ (handleFile st fname).file = st.file)
    ∧ ((∀ n, st.file = some n → validUploadName n = true) →
        ∀ req ∈ (runUpload st acts).2,
          validUploadName (requestFileName req) = true)
    ∧ (∀ req ∈ (runUpload initUpload acts).2,
        validUploadName (requestFileName req) = true) := by
  refine ⟨?_, ?_, ?_⟩
  · intro h
    constructor
    · unfold handleFile
      rw [if_pos (by rw [h]; rfl)]
    · unfold handleFile
      rw [if_pos (by rw [h]; rfl)]
  · intro hst
    exact (runUpload_requests_valid acts st hst).1
  · refine (runUpload_requests_valid acts initUpload ?_).1
    intro n hn
    exact absurd hn (by simp [initUpload])

/-- Witness for C9: the text file `"data.txt"` is rejected with the error
banner, and a session that chooses it and clicks analyze issues no
request. -/
theorem claim_C9_witness :
    validUploadName "data.txt" = false
    ∧ handleFile initUpload "data.txt"
      = { file := none, error := some uploadErrorMsg }
    ∧ ∀ req ∈ (runUpload initUpload
        [UploadAction.chooseFile "data.txt", UploadAction.analyzeClick]).2,
        validUploadName (requestFileName req) = true :=
  ⟨by decide,
    ((claim_C9_upload_extension_guard initUpload "data.txt" []).1 (by decide)).1,
    (claim_C9_upload_extension_guard initUpload "data.txt"
      [UploadAction.chooseFile "data.txt", UploadAction.analyzeClick]).2.2⟩

/-! ### Attempt-detail Flag action (translated from
`frontend/src/pages/AttemptDetail.tsx`) -/

/-- JavaScript-style trim of a string (drop leading and trailing
whitespace). -/
def trimString (s : String) : String := String.mk (trimChars s.data)

/-- From `AttemptDetail.handleFlag`: return without any request when the id
is missing or the reason is empty after trimming; otherwise the trimmed
reason is what `flagAttempt` transmits. -/
def handleFlag (id : Option String) (flagReason : String) :
    Option (String × String) :=
  match id with
  | none => none
  | some i =>
    if trimString flagReason = "" then none
    else some (i, trimString flagReason)

/-- From the Flag button: disabled while flagging or while the trimmed
reason is empty. -/
def flagButtonDisabled (flagging : Bool) (flagReason : String) : Bool :=
  flagging || decide (trimString flagReason = "")

/-- C10: the Flag action never sends a blank reason — with an empty trimmed
reason `handleFlag` issues no request and the button is disabled; whenever
a request is sent, the transmitted reason is exactly the trimmed reason and
is non-empty. -/
theorem claim_C10_flag_requires_reason (id : Option String)
    (reason : String) (flagging : Bool) (i r : String) :
    (trimString reason = "" →
      handleFlag id reason = none
      ∧ flagButtonDisabled flagging reason = true)
    ∧ (handleFlag id reason = some (i, r) →
        r = trimString reason ∧ r ≠ "" ∧ id = some i) := by
  constructor
  · intro h
    constructor
    · unfold handleFlag
      cases id with
      | none => rfl
      | some j =>
        show (if trimString reason = "" then none
          else some (j, trimString reason)) = (none : Option (String × String))
        rw [if_pos h]
    · unfold flagButtonDisabled
      rw [h]
      simp
  · intro h
    unfold handleFlag at h
    cases id with
    | none => exact absurd h (by simp)
    | some j =>
      have h' : (if trimString reason = "" then none
          else some (j, trimString reason)) = some (i, r) := h
      by_cases ht : trimString reason = ""
      · rw [if_pos ht] at h'
        exact absurd h' (by simp)
      · rw [if_neg ht] at h'
        simp only [Option.some.injEq, Prod.mk.injEq] at h'
        exact ⟨h'.2.symm, by rw [← h'.2]; exact ht, by rw [h'.1]⟩

/-- Witness for C10: a whitespace-only reason is rejected with the button
disabled, and a padded reason `" spam  "` is transmitted trimmed to
`"spam"`. -/
theorem claim_C10_witness :
    (handleFlag (some "att-1") "   " = none
      ∧ flagButtonDisabled false "   " = true)
    ∧ ("spam" = trimString " spam  " ∧ "spam" ≠ ""
      ∧ (some "a" : Option String) = some "a") :=
  ⟨(claim_C10_flag_requires_reason (some "att-1") "   " false "x" "y").1
      (by decide),
    (claim_C10_flag_requires_reason (some "a") " spam  " false "a" "spam").2
      (by decide)⟩
